import Mathlib

set_option maxRecDepth 8192
set_option maxHeartbeats 1600000

/-
  Verification of the stock name-resolution engine (`stock_matcher.py`).

  The development shallowly embeds `StockMatcher`: text normalisation
  (`_clean_text`), catalog preparation (`_prepare_data`), the four indices
  (`_build_indices`, `_get_trigrams`), the match cascade (`match_stock`) with
  its six strategies (`_exact_match`, `_prefix_match`, `_word_match`,
  `_trigram_match`, `_phonetic_match`, `_fuzzy_fallback`) and the scorer
  (`_rank_matches`).

  Modelling conventions:
  - Character-level operations (lowercasing, the regex classes for word and
    whitespace characters) are modelled on their ASCII fragment, on which
    Python's semantics and the model agree exactly; `unicodedata.normalize`
    with form NFKD is the identity on that fragment and is therefore not a
    separate stage of the pipeline.
  - The phonetic code function `jellyfish.metaphone` is an external library
    whose algorithm the repository does not contain; every definition is
    parameterised over an arbitrary code function `mp : String → String`, and
    concrete evaluations instantiate it with an injective stand-in.
  - `rapidfuzz.fuzz.ratio` is the normalized indel similarity,
    `100 * 2 * lcs(a,b) / (len(a) + len(b))`; it is implemented here exactly
    via a longest-common-subsequence computation.
  - Scores are exact rationals.  All rational arithmetic inside executable
    definitions is phrased with the kernel-computable primitives
    `Rat.divInt` / `Rat.blt` / `.num` / `.den`; bridge lemmas relate these to
    the ordinary field operations on `ℚ` for the statement-level theorems.
  - Python's `list(set(...))` over catalog positions is modelled as the
    sorted duplicate-free enumeration of the set.  CPython's actual set
    iteration order is a hash-table layout detail; claims whose truth depends
    on that order are not settled against this modelling choice.
-/

/-! ## Text normalisation (`StockMatcher._clean_text`) -/

/-- The ASCII whitespace characters recognised by Python's `str.split` and by
the regex class `\s`. -/
def isPySpace (c : Char) : Bool :=
  c = ' ' || c = '\t' || c = '\n' || c = '\r' || c = '\x0b' || c = '\x0c'

/-- The ASCII fragment of the regex class `\w`: alphanumerics and the
underscore. -/
def isWordChar (c : Char) : Bool :=
  c.isAlphanum || c = '_'

/-- One character step of `re.sub(r'[^\w\s]', ' ', ·)`: characters that are
neither word characters nor whitespace are replaced by a space. -/
def subChar (c : Char) : Char :=
  if isWordChar c || isPySpace c then c else ' '

/-- Worker for `str.split()`: split at characters satisfying `p`, keeping the
(possibly empty) chunks; `acc` is the reversed current chunk. -/
def splitAux (p : Char → Bool) : List Char → List Char → List (List Char)
  | [], acc => [acc.reverse]
  | c :: cs, acc =>
    if p c then acc.reverse :: splitAux p cs []
    else splitAux p cs (c :: acc)

/-- Python's `str.split()` with no separator: split on whitespace runs and
drop empty chunks (this also trims leading and trailing whitespace). -/
def pySplit (cs : List Char) : List (List Char) :=
  (splitAux isPySpace cs []).filter (fun w => !w.isEmpty)

/-- Python's `' '.join(·)`. -/
def joinSp : List (List Char) → List Char
  | [] => []
  | [w] => w
  | w :: ws => w ++ ' ' :: joinSp ws

/-- `StockMatcher._clean_text` on character lists: lowercase, replace
non-word non-space characters by spaces, then collapse whitespace runs and
trim via `' '.join(text.split())`.  (`unicodedata.normalize('NFKD', ·)` is
the identity on the modelled ASCII fragment.) -/
def cleanChars (cs : List Char) : List Char :=
  joinSp (pySplit ((cs.map Char.toLower).map subChar))

/-- `StockMatcher._clean_text`. -/
def cleanText (s : String) : String :=
  (cleanChars s.toList).asString

/-! ## Ranges, trigrams (`_get_trigrams`) -/

/-- Python's `range(a, b)`. -/
def pyRange (a b : Nat) : List Nat := List.range' a (b - a)

/-- `StockMatcher._get_trigrams`: the source pads with TWO leading spaces and
ONE trailing space (`text = f"  {text} "`) and then takes every 3-character
sliding window `text[i:i+3]` for `i in range(len(text) - 2)`. -/
def getTrigrams (s : String) : List String :=
  let t : List Char := ' ' :: ' ' :: s.toList ++ [' ']
  (pyRange 0 (t.length - 2)).map (fun i => ((t.drop i).take 3).asString)

/-- The trigram list as the spec words it: the string padded with exactly ONE
leading and ONE trailing space, then every 3-character sliding window.  (Kept
only to compare the spec's description against the source's `_get_trigrams`.) -/
def specTrigrams (s : String) : List String :=
  let t : List Char := ' ' :: s.toList ++ [' ']
  (pyRange 0 (t.length - 2)).map (fun i => ((t.drop i).take 3).asString)

/-- All complete 3-character sliding windows of a character list. -/
def windowsOf3 : List Char → List (List Char)
  | a :: b :: c :: rest => [a, b, c] :: windowsOf3 (b :: c :: rest)
  | _ => []

/-! ## Exact rational arithmetic

The similarity scores of `_rank_matches` and `_fuzzy_fallback` are modelled
as exact rationals.  The field operations on `ℚ` are not kernel-reducible in
this toolchain, so the executable definitions below use `Rat.divInt`,
`Rat.blt` and the `num`/`den` projections, which are; the bridge lemmas
identify them with the ordinary operations. -/

/-- Kernel-computable product of two rationals. -/
def qMul (a b : ℚ) : ℚ := Rat.divInt (a.num * b.num) ((a.den : ℤ) * (b.den : ℤ))

/-- Kernel-computable sum of two rationals. -/
def qAdd (a b : ℚ) : ℚ :=
  Rat.divInt (a.num * (b.den : ℤ) + b.num * (a.den : ℤ)) ((a.den : ℤ) * (b.den : ℤ))

/-- Kernel-computable maximum of two rationals (Python's two-argument `max`). -/
def qMax (a b : ℚ) : ℚ := if Rat.blt a b then b else a

/-- Kernel-computable `a ≤ b` test on rationals. -/
def qLe (a b : ℚ) : Bool := !(Rat.blt b a)

/-- `_rank_matches` score formula:
`max(name_similarity * 0.7 + symbol_similarity * 0.3, name_similarity,
symbol_similarity) * 100`. -/
def finalScore (ns ss : ℚ) : ℚ :=
  qMul (qMax (qMax (qAdd (qMul ns (Rat.divInt 7 10)) (qMul ss (Rat.divInt 3 10))) ns) ss) 100

/-! ## String similarity (`difflib.SequenceMatcher.ratio`, `rapidfuzz.fuzz.ratio`) -/

/-- Length of the longest common prefix of two character lists. -/
def cpl : List Char → List Char → Nat
  | a :: as, b :: bs => if a = b then cpl as bs + 1 else 0
  | _, _ => 0

/-- `difflib.SequenceMatcher.find_longest_match` restricted to the window
`a[alo:ahi] × b[blo:bhi]` (no junk, no autojunk: the compared strings are far
shorter than 200 characters): the longest matching block, among those the one
starting earliest in `a`, then earliest in `b`; returns `(i, j, size)`. -/
def flm (a b : List Char) (alo ahi blo bhi : Nat) : Nat × Nat × Nat :=
  (pyRange alo ahi).foldl
    (fun best i =>
      (pyRange blo bhi).foldl
        (fun best j =>
          let k := cpl ((a.drop i).take (ahi - i)) ((b.drop j).take (bhi - j))
          if best.2.2 < k then (i, j, k) else best)
        best)
    (alo, blo, 0)

/-- Total matched size over all blocks of
`difflib.SequenceMatcher.get_matching_blocks`, with explicit fuel so that the
definition is structurally recursive and kernel-computable. -/
def mtF : Nat → List Char → List Char → Nat → Nat → Nat → Nat → Nat
  | 0, _, _, _, _, _, _ => 0
  | fuel + 1, a, b, alo, ahi, blo, bhi =>
    let r := flm a b alo ahi blo bhi
    if r.2.2 = 0 then 0
    else
      mtF fuel a b alo r.1 blo r.2.1 + r.2.2 + mtF fuel a b (r.1 + r.2.2) ahi (r.2.1 + r.2.2) bhi

/-- Total number of matched characters between `a` and `b` (the `M` of
`difflib`); `a.length + b.length + 1` is always enough fuel because every
recursive call strictly shrinks the window. -/
def matchTotal (a b : List Char) : Nat :=
  mtF (a.length + b.length + 1) a b 0 a.length 0 b.length

/-- `difflib.SequenceMatcher(None, a, b).ratio()` as an exact rational:
`2 * M / (len(a) + len(b))`, and `1.0` when both inputs are empty. -/
def simRatio (a b : List Char) : ℚ :=
  if a.length + b.length = 0 then 1
  else Rat.divInt (2 * (matchTotal a b : ℤ)) ((a.length : ℤ) + (b.length : ℤ))

/-- One inner step of the longest-common-subsequence dynamic program:
`diag`, `left` and the running `old` row produce the next row entry. -/
def lcsGo (c : Char) : List Char → List Nat → Nat → Nat → List Nat
  | bj :: bs, oj1 :: rest, diag, left =>
    let v := if c = bj then diag + 1 else max left oj1
    v :: lcsGo c bs rest oj1 v
  | _, _, _, _ => []

/-- One row update of the LCS dynamic program. -/
def lcsStep (c : Char) (b : List Char) (old : List Nat) : List Nat :=
  0 :: lcsGo c b old.tail (old.headD 0) 0

/-- Length of the longest common subsequence of two character lists. -/
def lcs (a b : List Char) : Nat :=
  (a.foldl (fun row c => lcsStep c b row) (List.replicate (b.length + 1) 0)).getLastD 0

/-- Modelled from the spec: `rapidfuzz.fuzz.ratio` (an external library, not
part of the repository sources) is the normalized indel similarity on a
0–100 scale, `100 * (1 - indel(a,b)/(len(a)+len(b)))`, which equals
`200 * lcs(a,b) / (len(a) + len(b))`; it is `100.0` for two empty strings. -/
def fuzzRatio (qc nm : String) : ℚ :=
  if qc.toList.length + nm.toList.length = 0 then 100
  else
    Rat.divInt (200 * (lcs qc.toList nm.toList : ℤ))
      ((qc.toList.length : ℤ) + (nm.toList.length : ℤ))

-- temporary sanity checks (to be removed)

/-! ## Data model (`_prepare_data`, `__init__`) -/

/-- A catalog record: raw symbol and company name, the precomputed cleaned
name, and the derived ticker. -/
structure Stock where
  symbol : String
  name : String
  clean_name : String
  ticker : String
deriving Repr, DecidableEq

/-- The match-type tags used by the source: `'exact'`, `'similarity'` (all
four ranked tiers) and `'fuzzy'`. -/
inductive MType where
  | exact
  | similarity
  | fuzzy
deriving Repr, DecidableEq

/-- One entry of a result list: the record, its score and the tag. -/
structure MatchResult where
  stock : Stock
  score : ℚ
  match_type : MType
deriving Repr, DecidableEq

/-- Python's `str.strip()` (ASCII fragment): remove leading and trailing
whitespace. -/
def pyStrip (s : String) : String :=
  (((s.toList.dropWhile isPySpace).reverse.dropWhile isPySpace).reverse).asString

/-- `StockMatcher._prepare_data`: every row (symbol column, company-name
column) is stripped and becomes a record with precomputed cleaned name and
the ticker `symbol + ".NS"`. -/
def prepareData (rows : List (String × String)) : List Stock :=
  rows.map fun r =>
    let symbol := pyStrip r.1
    let nm := pyStrip r.2
    { symbol := symbol, name := nm, clean_name := cleanText nm, ticker := symbol ++ ".NS" }

/-- Python's `v.replace(".NS", "")`: delete every occurrence. -/
def stripNSList : List Char → List Char
  | '.' :: 'N' :: 'S' :: rest => stripNSList rest
  | c :: rest => c :: stripNSList rest
  | [] => []

def stripNS (s : String) : String := (stripNSList s.toList).asString

/-- `StockMatcher.__init__` on a name→ticker mapping: each (name, ticker)
entry becomes the row `(ticker.replace(".NS", ""), name)`. -/
def catalogFromMap (m : List (String × String)) : List Stock :=
  prepareData (m.map fun kv => (stripNS kv.2, kv.1))

/-- Python `str.lower()` (ASCII fragment). -/
def strLower (s : String) : String := (s.toList.map Char.toLower).asString

/-- Python `str.upper()` (ASCII fragment). -/
def strUpper (s : String) : String := (s.toList.map Char.toUpper).asString

/-! ## Indices (`_build_indices`) -/

/-- A `defaultdict(list)` keyed by strings with posting lists of catalog
positions, in insertion order. -/
abbrev DD := List (String × List Nat)

def ddFind? (d : DD) (k : String) : Option (List Nat) :=
  (d.find? (fun kv => kv.1 == k)).map (fun kv => kv.2)

def ddContains (d : DD) (k : String) : Bool := (ddFind? d k).isSome

/-- `d[k].append(i)` on a `defaultdict(list)`. -/
def ddAdd (d : DD) (k : String) (i : Nat) : DD :=
  if ddContains d k then
    d.map (fun kv => if kv.1 == k then (kv.1, kv.2 ++ [i]) else kv)
  else d ++ [(k, [i])]

/-- Append position `i` under every key in `ks`. -/
def addAll (d : DD) (ks : List String) (i : Nat) : DD :=
  ks.foldl (fun d k => ddAdd d k i) d

structure Indices where
  prefix_index : DD
  word_index : DD
  trigram_index : DD
  phonetic_index : DD
deriving Repr, DecidableEq

def emptyIndices : Indices := ⟨[], [], [], []⟩

/-- The prefix-index keys contributed by one record: prefixes of its cleaned
name and of its lowercased symbol, lengths `range(2, min(len + 1, 5))`. -/
def prefixKeys (st : Stock) : List String :=
  (pyRange 2 (min (st.clean_name.length + 1) 5)).map
      (fun l => (st.clean_name.toList.take l).asString)
    ++ (pyRange 2 (min ((strLower st.symbol).length + 1) 5)).map
      (fun l => ((strLower st.symbol).toList.take l).asString)

/-- The word-index keys contributed by one record: words of the cleaned name
of length at least 2. -/
def wordKeys (st : Stock) : List String :=
  ((pySplit st.clean_name.toList).filter (fun w => 2 ≤ w.length)).map List.asString

/-- The trigram-index keys contributed by one record. -/
def trigramKeys (st : Stock) : List String := getTrigrams st.clean_name

/-- `clean_name.replace(' ', '')`. -/
def removeSpaces (s : String) : String := (s.toList.filter (fun c => !(c = ' '))).asString

/-- The phonetic-index key contributed by one record: the phonetic code of
the space-stripped cleaned name, skipped when the code is empty
(`if phonetic:`). -/
def phoneticKeys (mp : String → String) (st : Stock) : List String :=
  let ph := mp (removeSpaces st.clean_name)
  if ph = "" then [] else [ph]

/-- `_build_indices` body for one enumerated record. -/
def addStock (mp : String → String) (ix : Indices) (p : Nat × Stock) : Indices :=
  { prefix_index := addAll ix.prefix_index (prefixKeys p.2) p.1
    word_index := addAll ix.word_index (wordKeys p.2) p.1
    trigram_index := addAll ix.trigram_index (trigramKeys p.2) p.1
    phonetic_index := addAll ix.phonetic_index (phoneticKeys mp p.2) p.1 }

/-- `StockMatcher._build_indices`. -/
def buildIndices (mp : String → String) (sd : List Stock) : Indices :=
  (sd.enum).foldl (addStock mp) emptyIndices

/-! ## Match strategies -/

/-- Python's substring test `needle in hay` on strings. -/
def isSubstr (needle hay : List Char) : Bool :=
  (List.range (hay.length + 1)).any (fun i => (hay.drop i).take needle.length == needle)

/-- `_exact_match` predicate: symbol equals the uppercased raw query, or the
cleaned name equals the cleaned query, or the cleaned query is a substring of
the cleaned name. -/
def exactPred (q qc : String) (st : Stock) : Bool :=
  st.symbol == strUpper q || st.clean_name == qc || isSubstr qc.toList st.clean_name.toList

/-- `StockMatcher._exact_match`: all satisfying records in catalog order,
each with score 100 and tag `exact`. -/
def exactMatch (sd : List Stock) (q qc : String) : List MatchResult :=
  (sd.filter (exactPred q qc)).map (fun st => ⟨st, 100, MType.exact⟩)

/-- Insert into an ascending duplicate-free list of positions. -/
def posInsert (n : Nat) : List Nat → List Nat
  | [] => [n]
  | m :: ms =>
    if n < m then n :: m :: ms else if n = m then m :: ms else m :: posInsert n ms

/-- Model of `list(set(...))` over catalog positions: the set's elements in
ascending order.  (CPython's actual set iteration order is a hash-table
layout detail; no order-sensitive claim is settled against this choice.) -/
def posSet (l : List Nat) : List Nat := l.foldl (fun acc n => posInsert n acc) []

/-- `StockMatcher._prefix_match`: union of the posting lists of the present
query prefixes of length 2..4. -/
def prefixMatch (ix : Indices) (qc : String) : List Nat :=
  posSet ((pyRange 2 (min (qc.length + 1) 5)).foldl
    (fun acc l =>
      match ddFind? ix.prefix_index (qc.toList.take l).asString with
      | some v => acc ++ v
      | none => acc) [])

/-- `StockMatcher._word_match`: union of the posting lists of the present
query words of length at least 2. -/
def wordMatch (ix : Indices) (qc : String) : List Nat :=
  posSet ((pySplit qc.toList).foldl
    (fun acc w =>
      if 2 ≤ w.length then
        match ddFind? ix.word_index w.asString with
        | some v => acc ++ v
        | none => acc
      else acc) [])

/-- First-occurrence deduplication (`set(...)` of the query trigrams; the
resulting candidate order stands in for CPython's set iteration order). -/
def dedupF (seen : List String) : List String → List String
  | [] => []
  | t :: ts => if t ∈ seen then dedupF seen ts else t :: dedupF (t :: seen) ts

/-- `candidate_scores[idx] += 1` on an insertion-ordered counter. -/
def cntAdd (l : List (Nat × Nat)) (i : Nat) : List (Nat × Nat) :=
  if l.any (fun p => p.1 == i) then
    l.map (fun p => if p.1 == i then (p.1, p.2 + 1) else p)
  else l ++ [(i, 1)]

/-- `StockMatcher._trigram_match`: count matching trigrams per candidate and
keep those with count at least `max(1, 0.3 * number of query trigrams)`. -/
def trigramMatch (ix : Indices) (qc : String) : List Nat :=
  let qts := dedupF [] (getTrigrams qc)
  let counts := qts.foldl
    (fun acc t =>
      match ddFind? ix.trigram_index t with
      | some v => v.foldl cntAdd acc
      | none => acc) []
  let minScore := qMax 1 (qMul ((qts.length : ℚ)) (Rat.divInt 3 10))
  (counts.filter (fun p => qLe minScore ((p.2 : ℚ)))).map (fun p => p.1)

/-- `StockMatcher._phonetic_match`: exact phonetic-code lookup of the
space-stripped cleaned query (`if query_phonetic and query_phonetic in ...`). -/
def phoneticMatch (mp : String → String) (ix : Indices) (qc : String) : List Nat :=
  let ph := mp (removeSpaces qc)
  if ph = "" then []
  else
    match ddFind? ix.phonetic_index ph with
    | some v => v
    | none => []

/-- Stable insertion into a descending-by-score list: the new element passes
every element with score at least its own (`sorted(..., reverse=True)` is
stable). -/
def insDesc (m : MatchResult) : List MatchResult → List MatchResult
  | [] => [m]
  | x :: xs => if Rat.blt x.score m.score then m :: x :: xs else x :: insDesc m xs

/-- Stable sort by descending score. -/
def sortDesc (l : List MatchResult) : List MatchResult :=
  l.foldl (fun acc m => insDesc m acc) []

/-- The loop body of `_rank_matches` for one candidate position: compute the
name and symbol similarities, keep the candidate when `finalScore ≥ 30`.
(Candidate positions always come from the indices and are valid; an
out-of-range position contributes nothing.) -/
def rankOne (sd : List Stock) (qc : String) (idx : Nat) : Option MatchResult :=
  match sd.get? idx with
  | some st =>
    let ns := simRatio qc.toList st.clean_name.toList
    let ss := simRatio qc.toList (strLower st.symbol).toList
    let score := finalScore ns ss
    if qLe 30 score then some ⟨st, score, MType.similarity⟩ else none
  | none => none

/-- `StockMatcher._rank_matches`: score each candidate position, keep scores
≥ 30, sort by descending score (stable). -/
def rankMatches (sd : List Stock) (cands : List Nat) (qc : String) : List MatchResult :=
  sortDesc (cands.filterMap (rankOne sd qc))

/-- Stable insertion for the fuzzy results, descending by score. -/
def insDescP (m : Nat × ℚ) : List (Nat × ℚ) → List (Nat × ℚ)
  | [] => [m]
  | x :: xs => if Rat.blt x.2 m.2 then m :: x :: xs else x :: insDescP m xs

/-- Conversion of one fuzzy hit `(position, score)` into a `MatchResult`
(`sample_stocks[idx]` with the fuzzy score and tag). -/
def fuzzOne (sd : List Stock) (p : Nat × ℚ) : Option MatchResult :=
  match sd.get? p.1 with
  | some st => some (⟨st, p.2, MType.fuzzy⟩ : MatchResult)
  | none => none

/-- `StockMatcher._fuzzy_fallback`: `process.extract(query_clean, names,
scorer=fuzz.ratio, limit=max_results, score_cutoff=60)` — score every
catalog name, keep similarity ≥ 60, sort descending, take the limit. -/
def fuzzyFallback (fz : String → String → ℚ) (sd : List Stock) (qc : String) (k : Nat) :
    List MatchResult :=
  let scored := (sd.enum.map (fun p => (p.1, fz qc p.2.clean_name))).filter
    (fun p => qLe 60 p.2)
  let sorted := scored.foldl (fun acc m => insDescP m acc) []
  (sorted.take k).filterMap (fuzzOne sd)

/-- `StockMatcher.match_stock`: clean the query, then try the strategies in
the fixed order exact, prefix, word, trigram, phonetic; the FIRST strategy
whose raw candidate list is non-empty (Python truthiness) determines the
result, which is ranked and truncated to `max_results`; the fuzzy fallback
runs only when every strategy produced an empty candidate list. -/
def matchStock (mp : String → String) (fz : String → String → ℚ)
    (sd : List Stock) (ix : Indices) (q : String) (k : Nat) : List MatchResult :=
  let qc := cleanText q
  let em := exactMatch sd q qc
  if !em.isEmpty then em.take k
  else
    let pm := prefixMatch ix qc
    if !pm.isEmpty then (rankMatches sd pm qc).take k
    else
      let wm := wordMatch ix qc
      if !wm.isEmpty then (rankMatches sd wm qc).take k
      else
        let tm := trigramMatch ix qc
        if !tm.isEmpty then (rankMatches sd tm qc).take k
        else
          let hm := phoneticMatch mp ix qc
          if !hm.isEmpty then (rankMatches sd hm qc).take k
          else fuzzyFallback fz sd qc k

/-- Injective stand-in phonetic code used for concrete evaluations; claims
that depend on properties of the real metaphone are stated over an arbitrary
`mp`. -/
def mp0 : String → String := fun s => s

/-! ## Stateful embedding of the query path

The four indices are Python `defaultdict(list)` objects: subscripting a
missing key INSERTS that key with an empty list.  To make "queries do not
mutate the indices" a real statement, the query path is re-embedded with the
defaultdict state threaded through every subscript: `ddGetI` is
`__getitem__` (inserting on a missing key), and each strategy performs
exactly the membership guards of the source before subscripting.  The
catalog list itself is only ever read (no field of a record is assigned
anywhere in the query path), so the threaded state is the four indices. -/

/-- `defaultdict(list).__getitem__`: returns the posting list, inserting the
key with `[]` first when it is missing. -/
def ddGetI (d : DD) (k : String) : List Nat × DD :=
  match ddFind? d k with
  | some v => (v, d)
  | none => ([], d ++ [(k, [])])

/-- `_prefix_match` with the defaultdict state threaded through. -/
def prefixMatchS (ix : Indices) (qc : String) : List Nat × Indices :=
  let r := (pyRange 2 (min (qc.length + 1) 5)).foldl
    (fun (acc : List Nat × Indices) l =>
      let pref := (qc.toList.take l).asString
      if ddContains acc.2.prefix_index pref then
        let g := ddGetI acc.2.prefix_index pref
        (acc.1 ++ g.1, { acc.2 with prefix_index := g.2 })
      else acc)
    ([], ix)
  (posSet r.1, r.2)

/-- `_word_match` with the defaultdict state threaded through. -/
def wordMatchS (ix : Indices) (qc : String) : List Nat × Indices :=
  let r := (pySplit qc.toList).foldl
    (fun (acc : List Nat × Indices) w =>
      if 2 ≤ w.length then
        if ddContains acc.2.word_index w.asString then
          let g := ddGetI acc.2.word_index w.asString
          (acc.1 ++ g.1, { acc.2 with word_index := g.2 })
        else acc
      else acc)
    ([], ix)
  (posSet r.1, r.2)

/-- `_trigram_match` with the defaultdict state threaded through. -/
def trigramMatchS (ix : Indices) (qc : String) : List Nat × Indices :=
  let qts := dedupF [] (getTrigrams qc)
  let r := qts.foldl
    (fun (acc : List (Nat × Nat) × Indices) t =>
      if ddContains acc.2.trigram_index t then
        let g := ddGetI acc.2.trigram_index t
        (g.1.foldl cntAdd acc.1, { acc.2 with trigram_index := g.2 })
      else acc)
    ([], ix)
  let minScore := qMax 1 (qMul ((qts.length : ℚ)) (Rat.divInt 3 10))
  ((r.1.filter (fun p => qLe minScore ((p.2 : ℚ)))).map (fun p => p.1), r.2)

/-- `_phonetic_match` with the defaultdict state threaded through. -/
def phoneticMatchS (mp : String → String) (ix : Indices) (qc : String) :
    List Nat × Indices :=
  let ph := mp (removeSpaces qc)
  if ph = "" then ([], ix)
  else
    if ddContains ix.phonetic_index ph then
      let g := ddGetI ix.phonetic_index ph
      (g.1, { ix with phonetic_index := g.2 })
    else ([], ix)

/-- `match_stock` with the defaultdict state threaded through the cascade in
source order. -/
def matchStockS (mp : String → String) (fz : String → String → ℚ)
    (sd : List Stock) (ix : Indices) (q : String) (k : Nat) :
    List MatchResult × Indices :=
  let qc := cleanText q
  let em := exactMatch sd q qc
  if !em.isEmpty then (em.take k, ix)
  else
    let pm := prefixMatchS ix qc
    if !pm.1.isEmpty then ((rankMatches sd pm.1 qc).take k, pm.2)
    else
      let wm := wordMatchS pm.2 qc
      if !wm.1.isEmpty then ((rankMatches sd wm.1 qc).take k, wm.2)
      else
        let tm := trigramMatchS wm.2 qc
        if !tm.1.isEmpty then ((rankMatches sd tm.1 qc).take k, tm.2)
        else
          let hm := phoneticMatchS mp tm.2 qc
          if !hm.1.isEmpty then ((rankMatches sd hm.1 qc).take k, hm.2)
          else (fuzzyFallback fz sd qc k, hm.2)

/-! ## Concrete catalogs for the counterexamples and witnesses -/

/-- Catalog for the cascade counterexample: record 0 shares only the prefix
`"qq"` with the query `"qq abcdefgh"` (similarity below the floor), record 1
shares the full word `"abcdefgh"` (similarity above the floor). -/
def cat1 : List Stock := prepareData [("ZZ", "qqz"), ("BB", "abcdefgh")]

def ix1 : Indices := buildIndices mp0 cat1

/-- Catalog for the exact-match counterexample: record 0's cleaned name
contains record 1's cleaned name as a substring. -/
def cat2 : List Stock := prepareData [("XX", "ABC Corporation"), ("YY", "ABC")]

def ix2 : Indices := buildIndices mp0 cat2

/-- Catalog whose stored symbol is lowercase. -/
def cat2b : List Stock := prepareData [("abq", "zzz")]

def ix2b : Indices := buildIndices mp0 cat2b

/-- Catalog loaded from a name→ticker mapping with an empty company name. -/
def cat3 : List Stock := catalogFromMap [("", "ZQXW.NS")]

def ix3 : Indices := buildIndices mp0 cat3

def rowsR : List (String × String) :=
  [("RELIANCE", "Reliance Industries"), ("TCS", "Tata Consultancy Services")]

/-- The spec's running-example catalog. -/
def catR : List Stock := prepareData rowsR

def ixR : Indices := buildIndices mp0 catR

/-! ## Theorems -/

/-! ### Auxiliary character lemmas -/

theorem toNat_ofNat_valid (n : Nat) (h : n < 55296) : (Char.ofNat n).toNat = n := by
  have hv : n.isValidChar := Or.inl h
  simp only [Char.ofNat, hv, dite_true, reduceDIte]
  simp [Char.ofNatAux, Char.toNat, UInt32.toNat]

theorem toLower_idem (c : Char) : c.toLower.toLower = c.toLower := by
  unfold Char.toLower
  by_cases h : c.toNat ≥ 65 ∧ c.toNat ≤ 90
  · rw [if_pos h]
    have h1 : (Char.ofNat (c.toNat + 32)).toNat = c.toNat + 32 :=
      toNat_ofNat_valid _ (by omega)
    rw [if_neg (by rw [h1]; omega)]
  · rw [if_neg h, if_neg h]

theorem subChar_subChar (c : Char) : subChar (subChar c) = subChar c := by
  unfold subChar
  by_cases h : (isWordChar c || isPySpace c) = true
  · rw [if_pos h, if_pos h]
  · rw [if_neg h]
    norm_num [isPySpace]

/-! ### `splitAux` and `joinSp` lemmas -/

theorem splitAux_chars (p : Char → Bool) (cs : List Char) :
    ∀ acc : List Char, (∀ c ∈ acc, p c = false) →
      ∀ w ∈ splitAux p cs acc, ∀ c ∈ w, p c = false ∧ (c ∈ cs ∨ c ∈ acc) := by
  induction cs with
  | nil =>
    intro acc hacc w hw c hc
    simp only [splitAux, List.mem_singleton] at hw
    subst hw
    rw [List.mem_reverse] at hc
    exact ⟨hacc c hc, Or.inr hc⟩
  | cons c0 cs ih =>
    intro acc hacc w hw c hc
    simp only [splitAux] at hw
    by_cases h0 : p c0 = true
    · rw [if_pos h0] at hw
      rcases List.mem_cons.mp hw with hw | hw
      · subst hw
        rw [List.mem_reverse] at hc
        exact ⟨hacc c hc, Or.inr hc⟩
      · obtain ⟨hp, hmem⟩ := ih [] (by simp) w hw c hc
        rcases hmem with hmem | hmem
        · exact ⟨hp, Or.inl (List.mem_cons_of_mem _ hmem)⟩
        · simp at hmem
    · rw [if_neg h0] at hw
      have hacc' : ∀ d ∈ c0 :: acc, p d = false := by
        intro d hd
        rcases List.mem_cons.mp hd with hd | hd
        · subst hd; simpa using h0
        · exact hacc d hd
      obtain ⟨hp, hmem⟩ := ih (c0 :: acc) hacc' w hw c hc
      rcases hmem with hmem | hmem
      · exact ⟨hp, Or.inl (List.mem_cons_of_mem _ hmem)⟩
      · rcases List.mem_cons.mp hmem with hmem | hmem
        · exact ⟨hp, Or.inl (by simp [hmem])⟩
        · exact ⟨hp, Or.inr hmem⟩

theorem pySplit_nonempty (cs : List Char) : ∀ w ∈ pySplit cs, w ≠ [] := by
  intro w hw
  have := (List.mem_filter.mp hw).2
  simpa [List.isEmpty_iff] using this

theorem pySplit_chars (cs : List Char) :
    ∀ w ∈ pySplit cs, ∀ c ∈ w, isPySpace c = false ∧ c ∈ cs := by
  intro w hw c hc
  have hw' := (List.mem_filter.mp hw).1
  obtain ⟨hp, hmem⟩ := splitAux_chars isPySpace cs [] (by simp) w hw' c hc
  rcases hmem with hmem | hmem
  · exact ⟨hp, hmem⟩
  · simp at hmem

theorem mem_joinSp (ws : List (List Char)) :
    ∀ c ∈ joinSp ws, c = ' ' ∨ ∃ w ∈ ws, c ∈ w := by
  induction ws with
  | nil => intro c hc; simp [joinSp] at hc
  | cons w ws ih =>
    intro c hc
    cases ws with
    | nil =>
      simp only [joinSp] at hc
      exact Or.inr ⟨w, by simp, hc⟩
    | cons w' ws' =>
      simp only [joinSp, List.mem_append, List.mem_cons] at hc
      rcases hc with hc | hc | hc
      · exact Or.inr ⟨w, by simp, hc⟩
      · exact Or.inl hc
      · rcases ih c hc with h | ⟨u, hu, hcu⟩
        · exact Or.inl h
        · exact Or.inr ⟨u, List.mem_cons_of_mem _ hu, hcu⟩

theorem splitAux_append_clean (p : Char → Bool) (w : List Char)
    (hw : ∀ c ∈ w, p c = false) :
    ∀ (l acc : List Char), splitAux p (w ++ l) acc = splitAux p l (w.reverse ++ acc) := by
  induction w with
  | nil => intro l acc; simp
  | cons c0 w ih =>
    intro l acc
    have hc0 : p c0 = false := hw c0 (by simp)
    have hw' : ∀ c ∈ w, p c = false := fun c hc => hw c (List.mem_cons_of_mem _ hc)
    simp only [List.cons_append, splitAux, hc0, Bool.false_eq_true, if_false, List.append_eq]
    rw [ih hw' l (c0 :: acc)]
    simp

theorem pySplit_joinSp (W : List (List Char))
    (hne : ∀ w ∈ W, w ≠ [])
    (hsp : ∀ w ∈ W, ∀ c ∈ w, isPySpace c = false) :
    pySplit (joinSp W) = W := by
  induction W with
  | nil => simp [pySplit, joinSp, splitAux]
  | cons w ws ih =>
    cases ws with
    | nil =>
      have hw : ∀ c ∈ w, isPySpace c = false := hsp w (by simp)
      have : splitAux isPySpace (w ++ []) [] = [w] := by
        rw [splitAux_append_clean isPySpace w hw [] []]
        simp [splitAux]
      simp only [joinSp, pySplit]
      rw [← List.append_nil w, this]
      have : ¬w.isEmpty := by
        simpa [List.isEmpty_iff] using hne w (by simp)
      simp [this]
    | cons w' ws' =>
      have hw : ∀ c ∈ w, isPySpace c = false := hsp w (by simp)
      simp only [joinSp, pySplit]
      rw [splitAux_append_clean isPySpace w hw (' ' :: joinSp (w' :: ws')) []]
      have hsp' : isPySpace ' ' = true := by decide
      simp only [splitAux, hsp', if_true]
      have hne' : ∀ u ∈ w' :: ws', u ≠ [] :=
        fun u hu => hne u (List.mem_cons_of_mem _ hu)
      have hspW : ∀ u ∈ w' :: ws', ∀ c ∈ u, isPySpace c = false :=
        fun u hu => hsp u (List.mem_cons_of_mem _ hu)
      have hwne : ¬w.isEmpty := by
        simpa [List.isEmpty_iff] using hne w (by simp)
      have ihr := ih hne' hspW
      simp only [pySplit] at ihr
      simp [List.filter, hwne, ihr]

theorem map_fix {α : Type} (f : α → α) (l : List α) (h : ∀ a ∈ l, f a = a) :
    l.map f = l := by
  induction l with
  | nil => rfl
  | cons a l ih =>
    simp only [List.map_cons, h a (by simp), List.cons.injEq, true_and]
    exact ih (fun b hb => h b (List.mem_cons_of_mem _ hb))

/-- Every character of a cleaned text is either the separating space or a
lowercase-stable word character: the second pass changes nothing per char. -/
theorem cleanChars_char_fix (cs : List Char) :
    ∀ c ∈ cleanChars cs, Char.toLower c = c ∧ subChar c = c := by
  intro c hc
  rcases mem_joinSp _ c hc with rfl | ⟨w, hw, hcw⟩
  · exact ⟨by decide, by decide⟩
  · obtain ⟨hnsp, hmem⟩ := pySplit_chars _ w hw c hcw
    obtain ⟨d, hd_mem, hd⟩ := List.mem_map.mp hmem
    obtain ⟨e, _, he⟩ := List.mem_map.mp hd_mem
    by_cases hk : (isWordChar d || isPySpace d) = true
    · have hcd : d = c := by
        rw [← hd]
        unfold subChar
        rw [if_pos hk]
      subst hcd
      refine ⟨?_, ?_⟩
      · rw [← he, toLower_idem]
      · unfold subChar
        rw [if_pos hk]
    · exfalso
      have hsp : subChar d = ' ' := by
        unfold subChar
        rw [if_neg hk]
      rw [hd] at hsp
      subst hsp
      simp [isPySpace] at hnsp

/-- Claim C8: `_clean_text` is idempotent. -/
theorem cleanChars_idem (cs : List Char) : cleanChars (cleanChars cs) = cleanChars cs := by
  have hfix := cleanChars_char_fix cs
  have h1 : (cleanChars cs).map Char.toLower = cleanChars cs :=
    map_fix _ _ (fun c hc => (hfix c hc).1)
  have h2 : (cleanChars cs).map subChar = cleanChars cs :=
    map_fix _ _ (fun c hc => (hfix c hc).2)
  conv_lhs => rw [cleanChars, h1, h2]
  rw [cleanChars]
  exact congrArg joinSp
    (pySplit_joinSp _ (pySplit_nonempty _) (fun w hw c hc => (pySplit_chars _ w hw c hc).1))

/-- Claim C8: the normalization pipeline of `_clean_text` is idempotent:
lowercasing, replacing non-word non-space characters by spaces, collapsing
whitespace and trimming, applied twice, equals one application.  (The
`unicodedata.normalize('NFKD', ·)` stage is the identity on the modelled
ASCII fragment.) -/
theorem C8_clean_idempotent (s : String) : cleanText (cleanText s) = cleanText s := by
  unfold cleanText
  have h : ((cleanChars s.toList).asString).toList = cleanChars s.toList := rfl
  rw [h, cleanChars_idem]

theorem range_map_take_eq_windowsOf3 (cs : List Char) :
    (List.range (cs.length - 2)).map (fun i => (cs.drop i).take 3) = windowsOf3 cs := by
  match cs with
  | [] => rfl
  | [a] => rfl
  | [a, b] => rfl
  | a :: b :: c :: rest =>
    have hlen : (a :: b :: c :: rest).length - 2 = rest.length + 1 := by
      simp
    rw [hlen, List.range_succ_eq_map, List.map_cons, List.map_map]
    have ih := range_map_take_eq_windowsOf3 (b :: c :: rest)
    have hlen' : (b :: c :: rest).length - 2 = rest.length := by simp
    rw [hlen'] at ih
    have htail : List.map ((fun i => List.take 3 (List.drop i (a :: b :: c :: rest))) ∘ Nat.succ)
        (List.range rest.length) = windowsOf3 (b :: c :: rest) := by
      rw [← ih]
      apply List.map_congr_left
      intro i _
      simp [Function.comp]
    simp only [List.drop_zero, htail, windowsOf3]
    rfl
  termination_by cs.length
  decreasing_by simp

/-- Claim C4, counterexample: `_get_trigrams` pads with two leading spaces,
not one, so already on the two-character string `"ab"` it disagrees with the
spec's one-leading-one-trailing description. -/
theorem C4_counterexample :
    getTrigrams "ab" = ["  a", " ab", "ab "] ∧ specTrigrams "ab" = [" ab", "ab "] ∧
      getTrigrams "ab" ≠ specTrigrams "ab" := by
  refine ⟨by decide, by decide, by decide⟩

/-- Claim C4 (amended): the trigram list of a string (used identically at
index-build and query time) consists of every 3-character sliding window of
the string padded with exactly TWO leading spaces and ONE trailing space;
every string, even one shorter than 3 characters, yields exactly
`length + 1 ≥ 1` trigrams. -/
theorem C4_trigram_windows (s : String) :
    getTrigrams s = (windowsOf3 (' ' :: ' ' :: s.toList ++ [' '])).map List.asString ∧
      (getTrigrams s).length = s.length + 1 := by
  constructor
  · show (pyRange 0 ((' ' :: ' ' :: s.toList ++ [' ']).length - 2)).map _ = _
    rw [pyRange, Nat.sub_zero, ← List.range_eq_range',
      ← range_map_take_eq_windowsOf3 (' ' :: ' ' :: s.toList ++ [' ']), List.map_map]
    rfl
  · show ((pyRange 0 ((' ' :: ' ' :: s.toList ++ [' ']).length - 2)).map _).length = _
    rw [List.length_map, pyRange, List.length_range']
    have hs : s.length = s.toList.length := rfl
    rw [hs]
    simp only [List.length_append, List.length_cons, List.length_nil]
    omega

theorem qMul_eq (a b : ℚ) : qMul a b = a * b := by
  rw [qMul]
  conv_rhs => rw [← Rat.num_divInt_den a, ← Rat.num_divInt_den b]
  rw [Rat.divInt_mul_divInt _ _ (Int.natCast_ne_zero.mpr a.den_nz)
    (Int.natCast_ne_zero.mpr b.den_nz)]

theorem qAdd_eq (a b : ℚ) : qAdd a b = a + b := by
  rw [qAdd]
  conv_rhs => rw [← Rat.num_divInt_den a, ← Rat.num_divInt_den b]
  rw [Rat.divInt_add_divInt _ _ (Int.natCast_ne_zero.mpr a.den_nz)
    (Int.natCast_ne_zero.mpr b.den_nz)]

theorem blt_iff_lt (a b : ℚ) : Rat.blt a b = true ↔ a < b := Iff.rfl

theorem qMax_eq (a b : ℚ) : qMax a b = max a b := by
  rw [qMax, max_def]
  by_cases h : Rat.blt a b = true
  · have hab : a < b := (blt_iff_lt a b).mp h
    rw [if_pos h, if_pos hab.le]
  · have hba : ¬a < b := fun hc => h ((blt_iff_lt a b).mpr hc)
    rw [if_neg h]
    by_cases hle : a ≤ b
    · rw [if_pos hle]
      exact le_antisymm hle (le_of_not_lt hba)
    · rw [if_neg hle]

theorem qLe_iff (a b : ℚ) : qLe a b = true ↔ a ≤ b := by
  rw [qLe, Bool.not_eq_true']
  constructor
  · intro h
    exact le_of_not_lt (fun hc => by simp [(blt_iff_lt b a).mpr hc] at h)
  · intro h
    by_contra hc
    rw [Bool.not_eq_false] at hc
    exact absurd ((blt_iff_lt b a).mp hc) (not_lt_of_le h)

theorem finalScore_eq (ns ss : ℚ) :
    finalScore ns ss = max (max (ns * (7/10) + ss * (3/10)) ns) ss * 100 := by
  rw [finalScore, qMul_eq, qMax_eq, qMax_eq, qAdd_eq, qMul_eq, qMul_eq,
    Rat.divInt_eq_div, Rat.divInt_eq_div]
  norm_num

/-- Claim C10: for similarity values `a, b ∈ [0,1]` the weighted blend
`0.7·a + 0.3·b` never strictly exceeds both inputs, so the ranked-tier score
`max(0.7·a + 0.3·b, a, b) × 100` collapses to `max(a, b) × 100` and the
name-favouring weighting never changes any score. -/
theorem C10_blend_redundant (a b : ℚ) (ha0 : 0 ≤ a) (ha1 : a ≤ 1)
    (hb0 : 0 ≤ b) (hb1 : b ≤ 1) :
    finalScore a b = max a b * 100 := by
  rw [finalScore_eq]
  have hblend : a * (7/10) + b * (3/10) ≤ max a b := by
    have h1 : a * (7/10) ≤ max a b * (7/10) :=
      mul_le_mul_of_nonneg_right (le_max_left a b) (by norm_num)
    have h2 : b * (3/10) ≤ max a b * (3/10) :=
      mul_le_mul_of_nonneg_right (le_max_right a b) (by norm_num)
    calc a * (7/10) + b * (3/10) ≤ max a b * (7/10) + max a b * (3/10) :=
          add_le_add h1 h2
      _ = max a b := by ring
  have hmx : max (max (a * (7/10) + b * (3/10)) a) b = max a b := by
    apply le_antisymm
    · exact max_le (max_le hblend (le_max_left a b)) (le_max_right a b)
    · exact max_le ((le_max_right (a * (7/10) + b * (3/10)) a).trans (le_max_left _ b))
        (le_max_right _ b)
  rw [hmx]

/-- Witness for C10 at `a = 1/2`, `b = 1/4`. -/
theorem C10_blend_redundant_witness :
    finalScore (1/2) (1/4) = max ((1:ℚ)/2) (1/4) * 100 :=
  C10_blend_redundant (1/2) (1/4) (by norm_num) (by norm_num) (by norm_num) (by norm_num)

theorem isEmpty_false_of_ne {α : Type} (l : List α) (h : l ≠ []) : l.isEmpty = false := by
  cases l with
  | nil => exact absurd rfl h
  | cons a l => rfl

/-! ### Cascade branch equations for `match_stock` -/

theorem matchStock_exact (mp : String → String) (fz : String → String → ℚ)
    (sd : List Stock) (ix : Indices) (q : String) (k : Nat)
    (h : exactMatch sd q (cleanText q) ≠ []) :
    matchStock mp fz sd ix q k = (exactMatch sd q (cleanText q)).take k := by
  simp [matchStock, isEmpty_false_of_ne _ h]

theorem matchStock_prefix_t (mp : String → String) (fz : String → String → ℚ)
    (sd : List Stock) (ix : Indices) (q : String) (k : Nat)
    (h1 : exactMatch sd q (cleanText q) = [])
    (h : prefixMatch ix (cleanText q) ≠ []) :
    matchStock mp fz sd ix q k =
      (rankMatches sd (prefixMatch ix (cleanText q)) (cleanText q)).take k := by
  simp [matchStock, h1, isEmpty_false_of_ne _ h]

theorem matchStock_word (mp : String → String) (fz : String → String → ℚ)
    (sd : List Stock) (ix : Indices) (q : String) (k : Nat)
    (h1 : exactMatch sd q (cleanText q) = [])
    (h2 : prefixMatch ix (cleanText q) = [])
    (h : wordMatch ix (cleanText q) ≠ []) :
    matchStock mp fz sd ix q k =
      (rankMatches sd (wordMatch ix (cleanText q)) (cleanText q)).take k := by
  simp [matchStock, h1, h2, isEmpty_false_of_ne _ h]

theorem matchStock_trigram (mp : String → String) (fz : String → String → ℚ)
    (sd : List Stock) (ix : Indices) (q : String) (k : Nat)
    (h1 : exactMatch sd q (cleanText q) = [])
    (h2 : prefixMatch ix (cleanText q) = [])
    (h3 : wordMatch ix (cleanText q) = [])
    (h : trigramMatch ix (cleanText q) ≠ []) :
    matchStock mp fz sd ix q k =
      (rankMatches sd (trigramMatch ix (cleanText q)) (cleanText q)).take k := by
  simp [matchStock, h1, h2, h3, isEmpty_false_of_ne _ h]

theorem matchStock_phonetic (mp : String → String) (fz : String → String → ℚ)
    (sd : List Stock) (ix : Indices) (q : String) (k : Nat)
    (h1 : exactMatch sd q (cleanText q) = [])
    (h2 : prefixMatch ix (cleanText q) = [])
    (h3 : wordMatch ix (cleanText q) = [])
    (h4 : trigramMatch ix (cleanText q) = [])
    (h : phoneticMatch mp ix (cleanText q) ≠ []) :
    matchStock mp fz sd ix q k =
      (rankMatches sd (phoneticMatch mp ix (cleanText q)) (cleanText q)).take k := by
  simp [matchStock, h1, h2, h3, h4, isEmpty_false_of_ne _ h]

theorem matchStock_fuzzy (mp : String → String) (fz : String → String → ℚ)
    (sd : List Stock) (ix : Indices) (q : String) (k : Nat)
    (h1 : exactMatch sd q (cleanText q) = [])
    (h2 : prefixMatch ix (cleanText q) = [])
    (h3 : wordMatch ix (cleanText q) = [])
    (h4 : trigramMatch ix (cleanText q) = [])
    (h5 : phoneticMatch mp ix (cleanText q) = []) :
    matchStock mp fz sd ix q k = fuzzyFallback fz sd (cleanText q) k := by
  simp [matchStock, h1, h2, h3, h4, h5]

/-- Claim C1, counterexample: on the query `"qq abcdefgh"` against `cat1`,
the prefix tier's raw candidate list is non-empty (it finds record 0 via the
prefix `"qq"`), the score floor then discards every prefix candidate, and
`match_stock` returns the EMPTY list — it does not proceed to the word tier,
although the word tier would produce a post-floor candidate (record 1,
score 1600/19 ≈ 84.2). -/
theorem C1_counterexample :
    matchStock mp0 fuzzRatio cat1 ix1 "qq abcdefgh" 5 = [] ∧
      prefixMatch ix1 (cleanText "qq abcdefgh") ≠ [] ∧
      rankMatches cat1 (prefixMatch ix1 (cleanText "qq abcdefgh"))
        (cleanText "qq abcdefgh") = [] ∧
      rankMatches cat1 (wordMatch ix1 (cleanText "qq abcdefgh"))
        (cleanText "qq abcdefgh") ≠ [] := by
  refine ⟨by decide, by decide, by decide, by decide⟩

/-- Claim C1 (amended): `match_stock` short-circuits on the first strategy
whose RAW candidate list (before ranking and score-floor filtering) is
non-empty: that tier's ranked, floor-filtered, truncated result is returned
even when it is empty, and later tiers (and the fuzzy fallback) are not
consulted; the fuzzy fallback runs only when every strategy's raw candidate
list is empty. -/
theorem C1_cascade (mp : String → String) (fz : String → String → ℚ)
    (sd : List Stock) (ix : Indices) (q : String) (k : Nat) :
    (exactMatch sd q (cleanText q) ≠ [] →
      matchStock mp fz sd ix q k = (exactMatch sd q (cleanText q)).take k) ∧
    (exactMatch sd q (cleanText q) = [] → prefixMatch ix (cleanText q) ≠ [] →
      matchStock mp fz sd ix q k =
        (rankMatches sd (prefixMatch ix (cleanText q)) (cleanText q)).take k) ∧
    (exactMatch sd q (cleanText q) = [] → prefixMatch ix (cleanText q) = [] →
      wordMatch ix (cleanText q) ≠ [] →
      matchStock mp fz sd ix q k =
        (rankMatches sd (wordMatch ix (cleanText q)) (cleanText q)).take k) ∧
    (exactMatch sd q (cleanText q) = [] → prefixMatch ix (cleanText q) = [] →
      wordMatch ix (cleanText q) = [] → trigramMatch ix (cleanText q) ≠ [] →
      matchStock mp fz sd ix q k =
        (rankMatches sd (trigramMatch ix (cleanText q)) (cleanText q)).take k) ∧
    (exactMatch sd q (cleanText q) = [] → prefixMatch ix (cleanText q) = [] →
      wordMatch ix (cleanText q) = [] → trigramMatch ix (cleanText q) = [] →
      phoneticMatch mp ix (cleanText q) ≠ [] →
      matchStock mp fz sd ix q k =
        (rankMatches sd (phoneticMatch mp ix (cleanText q)) (cleanText q)).take k) ∧
    (exactMatch sd q (cleanText q) = [] → prefixMatch ix (cleanText q) = [] →
      wordMatch ix (cleanText q) = [] → trigramMatch ix (cleanText q) = [] →
      phoneticMatch mp ix (cleanText q) = [] →
      matchStock mp fz sd ix q k = fuzzyFallback fz sd (cleanText q) k) :=
  ⟨matchStock_exact mp fz sd ix q k,
   matchStock_prefix_t mp fz sd ix q k,
   matchStock_word mp fz sd ix q k,
   matchStock_trigram mp fz sd ix q k,
   matchStock_phonetic mp fz sd ix q k,
   matchStock_fuzzy mp fz sd ix q k⟩

/-- Witness for C1 (amended), exercising the prefix-tier conjunct on `cat1`:
the exact tier is empty, the prefix tier has raw candidates, and the result
is exactly the ranked prefix candidates truncated to 5 (here the empty list). -/
theorem C1_cascade_witness :
    matchStock mp0 fuzzRatio cat1 ix1 "qq abcdefgh" 5 =
      (rankMatches cat1 (prefixMatch ix1 (cleanText "qq abcdefgh"))
        (cleanText "qq abcdefgh")).take 5 :=
  (C1_cascade mp0 fuzzRatio cat1 ix1 "qq abcdefgh" 5).2.1 (by decide) (by decide)

/-! ### List helper lemmas -/

theorem mem_take_mem {α : Type} {x : α} : ∀ (k : Nat) (l : List α), x ∈ l.take k → x ∈ l := by
  intro k
  induction k with
  | zero => intro l h; simp at h
  | succ k ih =>
    intro l h
    cases l with
    | nil => simp at h
    | cons a l =>
      rcases List.mem_cons.mp h with h | h
      · simp [h]
      · exact List.mem_cons_of_mem _ (ih l h)

theorem head_take {α : Type} (k : Nat) (l : List α) (hk : 1 ≤ k) :
    (l.take k).head? = l.head? := by
  cases l with
  | nil => simp
  | cons a l =>
    cases k with
    | zero => omega
    | succ k => rfl

theorem take_ne_nil {α : Type} (k : Nat) (l : List α) (hk : 1 ≤ k) (hl : l ≠ []) :
    l.take k ≠ [] := by
  cases l with
  | nil => exact absurd rfl hl
  | cons a l =>
    cases k with
    | zero => omega
    | succ k => simp

theorem filter_head_find {α : Type} (p : α → Bool) (l : List α) :
    (l.filter p).head? = l.find? p := by
  induction l with
  | nil => rfl
  | cons a l ih =>
    by_cases h : p a = true
    · simp [List.filter, List.find?, h]
    · rw [Bool.not_eq_true] at h
      simp [List.filter, List.find?, h, ih]

/-! ### Exact-match lemmas -/

theorem prepareData_clean : ∀ (rows : List (String × String)) (i : Nat) (r : Stock),
    (prepareData rows).get? i = some r → r.clean_name = cleanText r.name := by
  intro rows
  induction rows with
  | nil => intro i r h; simp [prepareData] at h
  | cons row rows ih =>
    intro i r h
    cases i with
    | zero =>
      have hsome : some (⟨pyStrip row.1, pyStrip row.2, cleanText (pyStrip row.2),
          pyStrip row.1 ++ ".NS"⟩ : Stock) = some r := by
        simpa [prepareData] using h
      have hr := Option.some.inj hsome
      rw [← hr]
    | succ i =>
      exact ih i r (by simpa [prepareData] using h)

theorem exactMatch_mem_score (sd : List Stock) (q qc : String) :
    ∀ m ∈ exactMatch sd q qc, m.score = 100 ∧ m.match_type = MType.exact := by
  intro m hm
  obtain ⟨st, _, hst⟩ := List.mem_map.mp hm
  rw [← hst]
  exact ⟨rfl, rfl⟩

theorem exactMatch_mem_of_pred (sd : List Stock) (q qc : String) (st : Stock)
    (hst : st ∈ sd) (hp : exactPred q qc st = true) :
    (⟨st, 100, MType.exact⟩ : MatchResult) ∈ exactMatch sd q qc :=
  List.mem_map.mpr ⟨st, List.mem_filter.mpr ⟨hst, hp⟩, rfl⟩

theorem exactMatch_head (sd : List Stock) (q qc : String) :
    (exactMatch sd q qc).head? =
      (sd.find? (exactPred q qc)).map (fun st => ⟨st, 100, MType.exact⟩) := by
  rw [exactMatch, List.head?_map, filter_head_find]

/-- Claim C2, counterexample.  First facet: in `cat2`, the query `"ABC"` is
record 1's exact company name, but record 0 (`"ABC Corporation"`) also passes
the exact predicate through the substring branch and, coming earlier in the
catalog, is returned FIRST — the first element is not record 1.  Second
facet: in `cat2b` the stored symbol is `"abq"` (not uppercase); querying the
exact symbol `"abq"` misses the exact tier entirely (it compares the stored
symbol against `query.upper()`) and instead returns the record from the
prefix tier with match type `similarity`, not `exact`. -/
theorem C2_counterexample :
    matchStock mp0 fuzzRatio cat2 ix2 "ABC" 5 =
      [⟨⟨"XX", "ABC Corporation", "abc corporation", "XX.NS"⟩, 100, MType.exact⟩,
       ⟨⟨"YY", "ABC", "abc", "YY.NS"⟩, 100, MType.exact⟩] ∧
    cat2.get? 1 = some ⟨"YY", "ABC", "abc", "YY.NS"⟩ ∧
    (⟨"YY", "ABC", "abc", "YY.NS"⟩ : Stock).name = "ABC" ∧
    cat2b.get? 0 = some ⟨"abq", "zzz", "zzz", "abq.NS"⟩ ∧
    matchStock mp0 fuzzRatio cat2b ix2b "abq" 5 =
      [⟨⟨"abq", "zzz", "zzz", "abq.NS"⟩, 100, MType.similarity⟩] := by
  refine ⟨by decide, by decide, by decide, by decide, by decide⟩

/-- Claim C2 (amended): querying with a catalog record's exact company name —
or with its symbol in any letter case, provided the stored symbol is
uppercase — returns a non-empty list whose entries all have score 100 and
match type `exact`; the record itself appears among the untruncated exact
matches; and the FIRST element is the exact match at the EARLIEST catalog
position passing the exact predicate, which is the queried record only when
no earlier record also passes (e.g. via the substring branch). -/
theorem C2_exact_reflexive (mp : String → String) (fz : String → String → ℚ)
    (rows : List (String × String)) (ix : Indices) (i : Nat) (r : Stock)
    (q : String) (k : Nat)
    (hr : (prepareData rows).get? i = some r)
    (hq : q = r.name ∨ (strUpper q = strUpper r.symbol ∧ strUpper r.symbol = r.symbol))
    (hk : 1 ≤ k) :
    matchStock mp fz (prepareData rows) ix q k ≠ [] ∧
    (∀ m ∈ matchStock mp fz (prepareData rows) ix q k,
      m.score = 100 ∧ m.match_type = MType.exact) ∧
    (⟨r, 100, MType.exact⟩ : MatchResult) ∈ exactMatch (prepareData rows) q (cleanText q) ∧
    (matchStock mp fz (prepareData rows) ix q k).head? =
      ((prepareData rows).find? (exactPred q (cleanText q))).map
        (fun st => ⟨st, 100, MType.exact⟩) := by
  have hpred : exactPred q (cleanText q) r = true := by
    rcases hq with rfl | ⟨h1, h2⟩
    · have hclean : r.clean_name = cleanText r.name := prepareData_clean rows i r hr
      simp [exactPred, hclean]
    · have : r.symbol = strUpper q := by rw [h1, h2]
      simp [exactPred, this]
  have hmem_r : r ∈ prepareData rows := List.get?_mem hr
  have hin := exactMatch_mem_of_pred (prepareData rows) q (cleanText q) r hmem_r hpred
  have hne : exactMatch (prepareData rows) q (cleanText q) ≠ [] :=
    List.ne_nil_of_mem hin
  have heq := matchStock_exact mp fz (prepareData rows) ix q k hne
  refine ⟨?_, ?_, hin, ?_⟩
  · rw [heq]
    exact take_ne_nil k _ hk hne
  · intro m hm
    rw [heq] at hm
    exact exactMatch_mem_score _ _ _ m (mem_take_mem k _ hm)
  · rw [heq, head_take k _ hk, exactMatch_head]

/-- Witness for C2 (amended) on the spec's running-example catalog, querying
record 0's exact company name. -/
theorem C2_exact_reflexive_witness :
    matchStock mp0 fuzzRatio catR ixR "Reliance Industries" 5 ≠ [] ∧
    (∀ m ∈ matchStock mp0 fuzzRatio catR ixR "Reliance Industries" 5,
      m.score = 100 ∧ m.match_type = MType.exact) ∧
    (⟨⟨"RELIANCE", "Reliance Industries", "reliance industries", "RELIANCE.NS"⟩,
        100, MType.exact⟩ : MatchResult) ∈
      exactMatch catR "Reliance Industries" (cleanText "Reliance Industries") ∧
    (matchStock mp0 fuzzRatio catR ixR "Reliance Industries" 5).head? =
      (catR.find? (exactPred "Reliance Industries" (cleanText "Reliance Industries"))).map
        (fun st => ⟨st, 100, MType.exact⟩) :=
  C2_exact_reflexive mp0 fuzzRatio rowsR ixR 0
    ⟨"RELIANCE", "Reliance Industries", "reliance industries", "RELIANCE.NS"⟩
    "Reliance Industries" 5 (by decide) (Or.inl (by decide)) (by decide)

/-! ### Index provenance lemmas -/

theorem ddAdd_mem (d : DD) (k : String) (j : Nat) :
    ∀ kv ∈ ddAdd d k j, ∀ x ∈ kv.2, (∃ kv0 ∈ d, x ∈ kv0.2) ∨ x = j := by
  intro kv hkv x hx
  rw [ddAdd] at hkv
  by_cases hc : ddContains d k = true
  · rw [if_pos hc] at hkv
    obtain ⟨kv0, hkv0, hmap⟩ := List.mem_map.mp hkv
    by_cases hk : (kv0.1 == k) = true
    · rw [if_pos hk] at hmap
      rw [← hmap] at hx
      rcases List.mem_append.mp hx with hx | hx
      · exact Or.inl ⟨kv0, hkv0, hx⟩
      · exact Or.inr (List.mem_singleton.mp hx)
    · rw [if_neg hk] at hmap
      rw [← hmap] at hx
      exact Or.inl ⟨kv0, hkv0, hx⟩
  · rw [if_neg hc] at hkv
    rcases List.mem_append.mp hkv with hkv | hkv
    · exact Or.inl ⟨kv, hkv, hx⟩
    · rw [List.mem_singleton.mp hkv] at hx
      exact Or.inr (List.mem_singleton.mp hx)

theorem addAll_mem (ks : List String) : ∀ (d : DD) (j : Nat),
    ∀ kv ∈ addAll d ks j, ∀ x ∈ kv.2,
      (∃ kv0 ∈ d, x ∈ kv0.2) ∨ (x = j ∧ ks ≠ []) := by
  induction ks with
  | nil =>
    intro d j kv hkv x hx
    exact Or.inl ⟨kv, by simpa [addAll] using hkv, hx⟩
  | cons k ks ih =>
    intro d j kv hkv x hx
    have hstep : addAll d (k :: ks) j = addAll (ddAdd d k j) ks j := rfl
    rcases ih (ddAdd d k j) j kv (hstep ▸ hkv) x hx with h | ⟨hxj, _⟩
    · obtain ⟨kv0, hkv0, hxkv0⟩ := h
      rcases ddAdd_mem d k j kv0 hkv0 x hxkv0 with h' | h'
      · exact Or.inl h'
      · exact Or.inr ⟨h', by simp⟩
    · exact Or.inr ⟨hxj, by simp⟩

theorem buildFold_word (mp : String → String) :
    ∀ (L : List (Nat × Stock)) (d0 : Indices),
      (L.foldl (addStock mp) d0).word_index =
        L.foldl (fun d p => addAll d (wordKeys p.2) p.1) d0.word_index := by
  intro L
  induction L with
  | nil => intro d0; rfl
  | cons p L ih =>
    intro d0
    simp only [List.foldl_cons, ih]
    rfl

theorem buildFold_phonetic (mp : String → String) :
    ∀ (L : List (Nat × Stock)) (d0 : Indices),
      (L.foldl (addStock mp) d0).phonetic_index =
        L.foldl (fun d p => addAll d (phoneticKeys mp p.2) p.1) d0.phonetic_index := by
  intro L
  induction L with
  | nil => intro d0; rfl
  | cons p L ih =>
    intro d0
    simp only [List.foldl_cons, ih]
    rfl

theorem addAll_fold_mem (f : Nat × Stock → List String) :
    ∀ (L : List (Nat × Stock)) (d0 : DD),
      ∀ kv ∈ L.foldl (fun d p => addAll d (f p) p.1) d0, ∀ x ∈ kv.2,
        (∃ kv0 ∈ d0, x ∈ kv0.2) ∨ ∃ p ∈ L, x = p.1 ∧ f p ≠ [] := by
  intro L
  induction L with
  | nil =>
    intro d0 kv hkv x hx
    exact Or.inl ⟨kv, by simpa using hkv, hx⟩
  | cons p L ih =>
    intro d0 kv hkv x hx
    rcases ih (addAll d0 (f p) p.1) kv (by simpa using hkv) x hx with h | ⟨p', hp', hxp⟩
    · obtain ⟨kv0, hkv0, hxkv0⟩ := h
      rcases addAll_mem (f p) d0 p.1 kv0 hkv0 x hxkv0 with h' | ⟨hxj, hne⟩
      · exact Or.inl h'
      · exact Or.inr ⟨p, by simp, hxj, hne⟩
    · exact Or.inr ⟨p', List.mem_cons_of_mem _ hp', hxp⟩

theorem enum_get (sd : List Stock) (i : Nat) (st : Stock) (h : (i, st) ∈ sd.enum) :
    sd.get? i = some st := by
  obtain ⟨hlen, hget⟩ := List.mem_enum h
  simp [List.get?_eq_getElem?, List.getElem?_eq_getElem hlen, hget]

theorem wordKeys_empty (r : Stock) (hc : r.clean_name = "") : wordKeys r = [] := by
  rw [wordKeys, hc]
  rfl

theorem phoneticKeys_empty (mp : String → String) (r : Stock)
    (hc : r.clean_name = "") (hmp : mp "" = "") : phoneticKeys mp r = [] := by
  have h0 : removeSpaces "" = "" := rfl
  simp [phoneticKeys, hc, h0, hmp]

/-- Claim C3, counterexample: a catalog loaded from a name→ticker mapping
with an EMPTY company name keeps the record; the record sits in the prefix
index under its symbol's prefixes (here `"zq"`) and in the trigram index
under the all-space trigram, and the query `"zq"` RETURNS it (score 200/3
from the symbol similarity, via the prefix tier). -/
theorem C3_counterexample :
    cat3 = [⟨"ZQXW", "", "", "ZQXW.NS"⟩] ∧
    ddFind? ix3.prefix_index "zq" = some [0] ∧
    ddFind? ix3.trigram_index "   " = some [0] ∧
    matchStock mp0 fuzzRatio cat3 ix3 "zq" 5 =
      [⟨⟨"ZQXW", "", "", "ZQXW.NS"⟩, Rat.divInt 200 3, MType.similarity⟩] := by
  refine ⟨by decide, by decide, by decide, by decide⟩

/-- Claim C3 (amended): a record whose company name normalizes to the empty
string is absent from the WORD index (its cleaned name has no words) and —
provided the phonetic code of the empty string is empty, as for metaphone —
from the PHONETIC index; but it still enters the prefix index through its
symbol's prefixes and the trigram index under the all-space trigram, and it
can be returned by `match_stock` (see the counterexample). -/
theorem C3_empty_absent (mp : String → String) (sd : List Stock) (i : Nat) (r : Stock)
    (hg : sd.get? i = some r) (hc : r.clean_name = "") (hmp : mp "" = "") :
    (∀ kv ∈ (buildIndices mp sd).word_index, i ∉ kv.2) ∧
    (∀ kv ∈ (buildIndices mp sd).phonetic_index, i ∉ kv.2) := by
  constructor
  · intro kv hkv hx
    rw [buildIndices, buildFold_word] at hkv
    rcases addAll_fold_mem (fun p => wordKeys p.2) sd.enum emptyIndices.word_index
        kv hkv i hx with h | ⟨p, hp, hpi, hpne⟩
    · obtain ⟨kv0, hkv0, _⟩ := h
      simp [emptyIndices] at hkv0
    · have hpair : (p.1, p.2) ∈ sd.enum := hp
      have hget := enum_get sd p.1 p.2 hpair
      rw [← hpi, hg] at hget
      have hr : p.2 = r := (Option.some.inj hget).symm
      exact hpne (by rw [hr, wordKeys_empty r hc])
  · intro kv hkv hx
    rw [buildIndices, buildFold_phonetic] at hkv
    rcases addAll_fold_mem (fun p => phoneticKeys mp p.2) sd.enum emptyIndices.phonetic_index
        kv hkv i hx with h | ⟨p, hp, hpi, hpne⟩
    · obtain ⟨kv0, hkv0, _⟩ := h
      simp [emptyIndices] at hkv0
    · have hpair : (p.1, p.2) ∈ sd.enum := hp
      have hget := enum_get sd p.1 p.2 hpair
      rw [← hpi, hg] at hget
      have hr : p.2 = r := (Option.some.inj hget).symm
      exact hpne (by rw [hr, phoneticKeys_empty mp r hc hmp])

/-- Witness for C3 (amended) on the mapping-loaded catalog with the
empty-name record. -/
theorem C3_empty_absent_witness :
    (∀ kv ∈ (buildIndices mp0 cat3).word_index, 0 ∉ kv.2) ∧
    (∀ kv ∈ (buildIndices mp0 cat3).phonetic_index, 0 ∉ kv.2) :=
  C3_empty_absent mp0 cat3 0 ⟨"ZQXW", "", "", "ZQXW.NS"⟩ (by decide) (by decide) (by decide)

/-! ### Membership lemmas for ranking and the fuzzy fallback -/

theorem mem_insDesc (m : MatchResult) : ∀ (l : List MatchResult) (x : MatchResult),
    x ∈ insDesc m l → x = m ∨ x ∈ l := by
  intro l
  induction l with
  | nil =>
    intro x hx
    simp only [insDesc, List.mem_singleton] at hx
    exact Or.inl hx
  | cons a l ih =>
    intro x hx
    rw [insDesc] at hx
    by_cases h : Rat.blt a.score m.score = true
    · rw [if_pos h] at hx
      rcases List.mem_cons.mp hx with h1 | h1
      · exact Or.inl h1
      · exact Or.inr h1
    · rw [if_neg h] at hx
      rcases List.mem_cons.mp hx with h1 | h1
      · exact Or.inr (by simp [h1])
      · rcases ih x h1 with h2 | h2
        · exact Or.inl h2
        · exact Or.inr (List.mem_cons_of_mem _ h2)

theorem mem_sortDesc_fold : ∀ (l acc : List MatchResult) (x : MatchResult),
    x ∈ l.foldl (fun acc m => insDesc m acc) acc → x ∈ acc ∨ x ∈ l := by
  intro l
  induction l with
  | nil => intro acc x hx; exact Or.inl hx
  | cons m l ih =>
    intro acc x hx
    rcases ih (insDesc m acc) x (by simpa using hx) with h | h
    · rcases mem_insDesc m acc x h with h' | h'
      · exact Or.inr (by simp [h'])
      · exact Or.inl h'
    · exact Or.inr (List.mem_cons_of_mem _ h)

theorem mem_sortDesc (l : List MatchResult) (x : MatchResult) (hx : x ∈ sortDesc l) :
    x ∈ l := by
  rcases mem_sortDesc_fold l [] x hx with h | h
  · simp at h
  · exact h

theorem mem_insDescP (m : Nat × ℚ) : ∀ (l : List (Nat × ℚ)) (x : Nat × ℚ),
    x ∈ insDescP m l → x = m ∨ x ∈ l := by
  intro l
  induction l with
  | nil =>
    intro x hx
    simp only [insDescP, List.mem_singleton] at hx
    exact Or.inl hx
  | cons a l ih =>
    intro x hx
    rw [insDescP] at hx
    by_cases h : Rat.blt a.2 m.2 = true
    · rw [if_pos h] at hx
      rcases List.mem_cons.mp hx with h1 | h1
      · exact Or.inl h1
      · exact Or.inr h1
    · rw [if_neg h] at hx
      rcases List.mem_cons.mp hx with h1 | h1
      · exact Or.inr (by simp [h1])
      · rcases ih x h1 with h2 | h2
        · exact Or.inl h2
        · exact Or.inr (List.mem_cons_of_mem _ h2)

theorem mem_foldP : ∀ (l acc : List (Nat × ℚ)) (x : Nat × ℚ),
    x ∈ l.foldl (fun acc m => insDescP m acc) acc → x ∈ acc ∨ x ∈ l := by
  intro l
  induction l with
  | nil => intro acc x hx; exact Or.inl hx
  | cons m l ih =>
    intro acc x hx
    rcases ih (insDescP m acc) x (by simpa using hx) with h | h
    · rcases mem_insDescP m acc x h with h' | h'
      · exact Or.inr (by simp [h'])
      · exact Or.inl h'
    · exact Or.inr (List.mem_cons_of_mem _ h)

theorem rankOne_some (sd : List Stock) (qc : String) (idx : Nat) (m : MatchResult)
    (hf : rankOne sd qc idx = some m) :
    (30 : ℚ) ≤ m.score ∧ m.match_type = MType.similarity := by
  rw [rankOne] at hf
  cases hst : sd.get? idx with
  | none => rw [hst] at hf; simp at hf
  | some st =>
    rw [hst] at hf
    dsimp only at hf
    by_cases hq : qLe 30 (finalScore (simRatio qc.toList st.clean_name.toList)
        (simRatio qc.toList (strLower st.symbol).toList)) = true
    · rw [if_pos hq] at hf
      have hm2 := Option.some.inj hf
      rw [← hm2]
      exact ⟨(qLe_iff _ _).mp hq, rfl⟩
    · rw [if_neg hq] at hf
      simp at hf

theorem rankMatches_mem (sd : List Stock) (cands : List Nat) (qc : String) :
    ∀ m ∈ rankMatches sd cands qc,
      (30 : ℚ) ≤ m.score ∧ m.match_type = MType.similarity := by
  intro m hm
  have hm' := mem_sortDesc _ m hm
  obtain ⟨idx, _, hf⟩ := List.mem_filterMap.mp hm'
  exact rankOne_some sd qc idx m hf

theorem fuzzOne_some (sd : List Stock) (p : Nat × ℚ) (m : MatchResult)
    (hf : fuzzOne sd p = some m) : m.score = p.2 ∧ m.match_type = MType.fuzzy := by
  rw [fuzzOne] at hf
  cases hst : sd.get? p.1 with
  | none => rw [hst] at hf; simp at hf
  | some st =>
    rw [hst] at hf
    dsimp only at hf
    have hm2 := Option.some.inj hf
    rw [← hm2]
    exact ⟨rfl, rfl⟩

theorem fuzzyFallback_mem (fz : String → String → ℚ) (sd : List Stock)
    (qc : String) (k : Nat) :
    ∀ m ∈ fuzzyFallback fz sd qc k,
      (60 : ℚ) ≤ m.score ∧ m.match_type = MType.fuzzy := by
  intro m hm
  rw [fuzzyFallback] at hm
  obtain ⟨p, hp, hf⟩ := List.mem_filterMap.mp hm
  have hp' := mem_take_mem k _ hp
  rcases mem_foldP _ [] p hp' with h | h
  · simp at h
  · have hfilter := List.mem_filter.mp h
    have h60 : qLe 60 p.2 = true := hfilter.2
    obtain ⟨hs, ht⟩ := fuzzOne_some sd p m hf
    rw [hs]
    exact ⟨(qLe_iff _ _).mp h60, ht⟩

/-- Claim C5: every result `match_stock` returns from a ranked
(non-exact) tier carries the `similarity` tag and score at least 30, and
every result from the fuzzy fallback carries the `fuzzy` tag and score at
least 60; no result below the applicable floor is ever returned. -/
theorem C5_score_floors (mp : String → String) (fz : String → String → ℚ)
    (sd : List Stock) (ix : Indices) (q : String) (k : Nat) :
    ∀ m ∈ matchStock mp fz sd ix q k,
      (m.match_type = MType.similarity → (30 : ℚ) ≤ m.score) ∧
      (m.match_type = MType.fuzzy → (60 : ℚ) ≤ m.score) := by
  intro m hm
  have hrank : ∀ cands : List Nat, m ∈ (rankMatches sd cands (cleanText q)).take k →
      (m.match_type = MType.similarity → (30 : ℚ) ≤ m.score) ∧
      (m.match_type = MType.fuzzy → (60 : ℚ) ≤ m.score) := by
    intro cands hm'
    have hr := rankMatches_mem sd cands (cleanText q) m (mem_take_mem k _ hm')
    refine ⟨fun _ => hr.1, fun hq => ?_⟩
    rw [hr.2] at hq
    simp at hq
  by_cases h1 : exactMatch sd q (cleanText q) = []
  · by_cases h2 : prefixMatch ix (cleanText q) = []
    · by_cases h3 : wordMatch ix (cleanText q) = []
      · by_cases h4 : trigramMatch ix (cleanText q) = []
        · by_cases h5 : phoneticMatch mp ix (cleanText q) = []
          · rw [matchStock_fuzzy mp fz sd ix q k h1 h2 h3 h4 h5] at hm
            have hfz := fuzzyFallback_mem fz sd (cleanText q) k m hm
            refine ⟨fun hq => ?_, fun _ => hfz.1⟩
            rw [hfz.2] at hq
            simp at hq
          · rw [matchStock_phonetic mp fz sd ix q k h1 h2 h3 h4 h5] at hm
            exact hrank _ hm
        · rw [matchStock_trigram mp fz sd ix q k h1 h2 h3 h4] at hm
          exact hrank _ hm
      · rw [matchStock_word mp fz sd ix q k h1 h2 h3] at hm
        exact hrank _ hm
    · rw [matchStock_prefix_t mp fz sd ix q k h1 h2] at hm
      exact hrank _ hm
  · rw [matchStock_exact mp fz sd ix q k h1] at hm
    have he := exactMatch_mem_score sd q (cleanText q) m (mem_take_mem k _ hm)
    refine ⟨fun hq => ?_, fun hq => ?_⟩ <;> rw [he.2] at hq <;> simp at hq

/-- Witness for C5 on `cat2b`: the single returned result of the prefix tier
for the query `"abq"` satisfies both floor implications. -/
theorem C5_score_floors_witness :
    ((⟨⟨"abq", "zzz", "zzz", "abq.NS"⟩, 100, MType.similarity⟩ : MatchResult).match_type =
        MType.similarity →
      (30 : ℚ) ≤ (⟨⟨"abq", "zzz", "zzz", "abq.NS"⟩, 100,
        MType.similarity⟩ : MatchResult).score) ∧
    ((⟨⟨"abq", "zzz", "zzz", "abq.NS"⟩, 100, MType.similarity⟩ : MatchResult).match_type =
        MType.fuzzy →
      (60 : ℚ) ≤ (⟨⟨"abq", "zzz", "zzz", "abq.NS"⟩, 100,
        MType.similarity⟩ : MatchResult).score) :=
  C5_score_floors mp0 fuzzRatio cat2b ix2b "abq" 5
    ⟨⟨"abq", "zzz", "zzz", "abq.NS"⟩, 100, MType.similarity⟩ (by decide)

/-! ### The query path does not mutate the indices (stateful agreement) -/

theorem idxEta1 (ix : Indices) : ({ ix with prefix_index := ix.prefix_index } : Indices) = ix := rfl

theorem idxEta2 (ix : Indices) : ({ ix with word_index := ix.word_index } : Indices) = ix := rfl

theorem idxEta3 (ix : Indices) : ({ ix with trigram_index := ix.trigram_index } : Indices) = ix := rfl

theorem idxEta4 (ix : Indices) : ({ ix with phonetic_index := ix.phonetic_index } : Indices) = ix := rfl

theorem ddGetI_some (d : DD) (k : String) (v : List Nat) (h : ddFind? d k = some v) :
    ddGetI d k = (v, d) := by
  rw [ddGetI, h]

theorem contains_of_find (d : DD) (k : String) (v : List Nat) (h : ddFind? d k = some v) :
    ddContains d k = true := by
  rw [ddContains, h]
  rfl

theorem find_of_contains (d : DD) (k : String) (h : ddContains d k = true) :
    ∃ v, ddFind? d k = some v := by
  rw [ddContains] at h
  cases hfind : ddFind? d k with
  | none => rw [hfind] at h; simp at h
  | some v => exact ⟨v, rfl⟩

theorem prefixMatchS_eq (ix : Indices) (qc : String) :
    prefixMatchS ix qc = (prefixMatch ix qc, ix) := by
  rw [prefixMatchS, prefixMatch]
  suffices h : ∀ (ls : List Nat) (a : List Nat),
      ls.foldl (fun (acc : List Nat × Indices) l =>
        let pref := (qc.toList.take l).asString
        if ddContains acc.2.prefix_index pref then
          let g := ddGetI acc.2.prefix_index pref
          (acc.1 ++ g.1, { acc.2 with prefix_index := g.2 })
        else acc) (a, ix)
      = (ls.foldl (fun acc l =>
          match ddFind? ix.prefix_index (qc.toList.take l).asString with
          | some v => acc ++ v
          | none => acc) a, ix) by
    rw [h]
  intro ls
  induction ls with
  | nil => intro a; rfl
  | cons l ls ih =>
    intro a
    simp only [List.foldl_cons]
    by_cases hc : ddContains ix.prefix_index (qc.toList.take l).asString = true
    · obtain ⟨v, hv⟩ := find_of_contains _ _ hc
      simp only [hc, if_true, ddGetI_some _ _ _ hv, hv, idxEta1]
      exact ih (a ++ v)
    · cases hv : ddFind? ix.prefix_index (qc.toList.take l).asString with
      | none => simp only [hc, Bool.false_eq_true, if_false, hv]; exact ih a
      | some v => exact absurd (contains_of_find _ _ _ hv) hc

theorem wordMatchS_eq (ix : Indices) (qc : String) :
    wordMatchS ix qc = (wordMatch ix qc, ix) := by
  rw [wordMatchS, wordMatch]
  suffices h : ∀ (ls : List (List Char)) (a : List Nat),
      ls.foldl (fun (acc : List Nat × Indices) w =>
        if 2 ≤ w.length then
          if ddContains acc.2.word_index w.asString then
            let g := ddGetI acc.2.word_index w.asString
            (acc.1 ++ g.1, { acc.2 with word_index := g.2 })
          else acc
        else acc) (a, ix)
      = (ls.foldl (fun acc w =>
          if 2 ≤ w.length then
            match ddFind? ix.word_index w.asString with
            | some v => acc ++ v
            | none => acc
          else acc) a, ix) by
    rw [h]
  intro ls
  induction ls with
  | nil => intro a; rfl
  | cons w ls ih =>
    intro a
    simp only [List.foldl_cons]
    by_cases hlen : 2 ≤ w.length
    · simp only [hlen, if_true]
      by_cases hc : ddContains ix.word_index w.asString = true
      · obtain ⟨v, hv⟩ := find_of_contains _ _ hc
        simp only [hc, if_true, ddGetI_some _ _ _ hv, hv, idxEta2]
        exact ih (a ++ v)
      · cases hv : ddFind? ix.word_index w.asString with
        | none => simp only [hc, Bool.false_eq_true, if_false, hv]; exact ih a
        | some v => exact absurd (contains_of_find _ _ _ hv) hc
    · simp only [hlen, if_false]
      exact ih a

theorem trigramMatchS_eq (ix : Indices) (qc : String) :
    trigramMatchS ix qc = (trigramMatch ix qc, ix) := by
  rw [trigramMatchS, trigramMatch]
  suffices h : ∀ (ls : List String) (a : List (Nat × Nat)),
      ls.foldl (fun (acc : List (Nat × Nat) × Indices) t =>
        if ddContains acc.2.trigram_index t then
          let g := ddGetI acc.2.trigram_index t
          (g.1.foldl cntAdd acc.1, { acc.2 with trigram_index := g.2 })
        else acc) (a, ix)
      = (ls.foldl (fun acc t =>
          match ddFind? ix.trigram_index t with
          | some v => v.foldl cntAdd acc
          | none => acc) a, ix) by
    rw [h]
  intro ls
  induction ls with
  | nil => intro a; rfl
  | cons t ls ih =>
    intro a
    simp only [List.foldl_cons]
    by_cases hc : ddContains ix.trigram_index t = true
    · obtain ⟨v, hv⟩ := find_of_contains _ _ hc
      simp only [hc, if_true, ddGetI_some _ _ _ hv, hv, idxEta3]
      exact ih (v.foldl cntAdd a)
    · cases hv : ddFind? ix.trigram_index t with
      | none => simp only [hc, Bool.false_eq_true, if_false, hv]; exact ih a
      | some v => exact absurd (contains_of_find _ _ _ hv) hc

theorem phoneticMatchS_eq (mp : String → String) (ix : Indices) (qc : String) :
    phoneticMatchS mp ix qc = (phoneticMatch mp ix qc, ix) := by
  rw [phoneticMatchS, phoneticMatch]
  by_cases hph : mp (removeSpaces qc) = ""
  · simp only [hph, if_true]
  · simp only [hph, if_false]
    by_cases hc : ddContains ix.phonetic_index (mp (removeSpaces qc)) = true
    · obtain ⟨v, hv⟩ := find_of_contains _ _ hc
      simp only [hc, if_true, ddGetI_some _ _ _ hv, hv, idxEta4]
    · cases hv : ddFind? ix.phonetic_index (mp (removeSpaces qc)) with
      | none => simp only [hc, Bool.false_eq_true, if_false, hv]
      | some v => exact absurd (contains_of_find _ _ _ hv) hc

/-- Claim C7: no query mutates the catalog or the indices.  The stateful
embedding `matchStockS` threads the four `defaultdict(list)` indices through
every subscript of the query path, where subscripting a missing key would
INSERT it (`ddGetI`); because every subscript in the source is guarded by a
membership test, the final state equals the initial state, and the computed
result agrees with the pure `matchStock`.  The catalog itself is only read
(no record field is ever assigned in the query path). -/
theorem C7_no_mutation (mp : String → String) (fz : String → String → ℚ)
    (sd : List Stock) (ix : Indices) (q : String) (k : Nat) :
    matchStockS mp fz sd ix q k = (matchStock mp fz sd ix q k, ix) := by
  rw [matchStockS, matchStock]
  simp only [prefixMatchS_eq, wordMatchS_eq, trigramMatchS_eq, phoneticMatchS_eq]
  split_ifs <;> rfl

/-! ### Empty catalog -/

theorem buildIndices_nil (mp : String → String) : buildIndices mp [] = emptyIndices := rfl

theorem prefixMatch_empty (qc : String) : prefixMatch emptyIndices qc = [] := by
  rw [prefixMatch]
  suffices h : ∀ (ls : List Nat) (a : List Nat),
      ls.foldl (fun acc l =>
        match ddFind? emptyIndices.prefix_index (qc.toList.take l).asString with
        | some v => acc ++ v
        | none => acc) a = a by
    rw [h]
    rfl
  intro ls
  induction ls with
  | nil => intro a; rfl
  | cons l ls ih =>
    intro a
    simp only [List.foldl_cons]
    exact ih a

theorem wordMatch_empty (qc : String) : wordMatch emptyIndices qc = [] := by
  rw [wordMatch]
  suffices h : ∀ (ls : List (List Char)) (a : List Nat),
      ls.foldl (fun acc w =>
        if 2 ≤ w.length then
          match ddFind? emptyIndices.word_index w.asString with
          | some v => acc ++ v
          | none => acc
        else acc) a = a by
    rw [h]
    rfl
  intro ls
  induction ls with
  | nil => intro a; rfl
  | cons w ls ih =>
    intro a
    simp only [List.foldl_cons]
    by_cases hlen : 2 ≤ w.length
    · simp only [hlen, if_true]
      exact ih a
    · simp only [hlen, if_false]
      exact ih a

theorem trigramMatch_empty (qc : String) : trigramMatch emptyIndices qc = [] := by
  rw [trigramMatch]
  suffices h : ∀ (ls : List String) (a : List (Nat × Nat)),
      ls.foldl (fun acc t =>
        match ddFind? emptyIndices.trigram_index t with
        | some v => v.foldl cntAdd acc
        | none => acc) a = a by
    rw [h]
    rfl
  intro ls
  induction ls with
  | nil => intro a; rfl
  | cons t ls ih =>
    intro a
    simp only [List.foldl_cons]
    exact ih a

theorem phoneticMatch_empty (mp : String → String) (qc : String) :
    phoneticMatch mp emptyIndices qc = [] := by
  rw [phoneticMatch]
  by_cases h : mp (removeSpaces qc) = ""
  · rw [if_pos h]
  · rw [if_neg h]
    rfl

theorem fuzzyFallback_nil (fz : String → String → ℚ) (qc : String) (k : Nat) :
    fuzzyFallback fz [] qc k = [] := by
  rw [fuzzyFallback]
  simp

/-- Claim C9: `match_stock` represents the absence of matches as an empty
list, never as an error (the embedding is total by construction).  A query
against an empty catalog returns the empty list for every query, result
bound and phonetic/fuzzy scorer; the spec's nothing-matches example
`"zzz-no-such-company"` against the running-example catalog also returns the
empty list. -/
theorem C9_empty_results :
    (∀ (mp : String → String) (fz : String → String → ℚ) (q : String) (k : Nat),
      matchStock mp fz [] (buildIndices mp []) q k = []) ∧
    matchStock mp0 fuzzRatio catR ixR "zzz-no-such-company" 5 = [] := by
  constructor
  · intro mp fz q k
    rw [buildIndices_nil]
    have h1 : exactMatch [] q (cleanText q) = [] := rfl
    have h2 := prefixMatch_empty (cleanText q)
    have h3 := wordMatch_empty (cleanText q)
    have h4 := trigramMatch_empty (cleanText q)
    have h5 := phoneticMatch_empty mp (cleanText q)
    rw [matchStock_fuzzy mp fz [] emptyIndices q k h1 h2 h3 h4 h5]
    exact fuzzyFallback_nil fz (cleanText q) k
  · decide
